import Mathlib

/-!
Verification of the formatter in `src/hextoc.py`.

The two conversion functions `binary_to_c_array` (escaped-string style,
called `FormatEscaped` in the design document) and
`binary_to_c_array_multiline` (hex-array style, `FormatHexArray`) are
embedded shallowly: bytes are `Fin 256`, Python strings are Lean
`String`s, `str.join` is `joinSep`, and the `for i in range(0, n, w)`
chunking loops are fuel-indexed recursions whose fuel (the list length)
is always sufficient because each iteration drops `w ≥ 1` elements.
A call with `width = 0` raises `ValueError` in Python (step 0 in
`range`); this is embedded by returning `Except.error`.
-/

namespace HexToC

/-- The sixteen uppercase hexadecimal digit characters, index `n` for value
`n` (`0`–`9` then `A`–`F`), as produced by Python's `"%X"` formatting. -/
def hexDigitChar (n : Nat) : Char :=
  if n < 10 then Char.ofNat (48 + n) else Char.ofNat (55 + n)

/-- Python `f"\x7bb:02X\x7d"` for a byte `b`: exactly two uppercase hex
digits (a byte is below `0x100`, so the pad-to-2 format gives exactly the
digits `b / 16` and `b % 16`). -/
def toHex2 (b : Fin 256) : String :=
  ⟨[hexDigitChar (b.val / 16), hexDigitChar (b.val % 16)]⟩

/-- Python `f"\x5cx\x7bbyte:02X\x7d"` (one element of `hex_values` in
`binary_to_c_array`). -/
def escHex (b : Fin 256) : String := "\\x" ++ toHex2 b

/-- Python `f"0x\x7bbyte:02X\x7d"` (one element of `hex_values` in
`binary_to_c_array_multiline`). -/
def hex0x (b : Fin 256) : String := "0x" ++ toHex2 b

/-- Python `sep.join(parts)`. -/
def joinSep (sep : String) : List String → String
  | [] => ""
  | [x] => x
  | x :: y :: t => x ++ (sep ++ joinSep sep (y :: t))

/-- Python `output[-1] += suf` expressed on the list of lines. -/
def appendToLast (suf : String) : List String → List String
  | [] => []
  | [x] => [x ++ suf]
  | x :: y :: t => x :: appendToLast suf (y :: t)

/-- Decimal digit characters of `n`, most significant first; `fuel`
bounds the recursion depth and `n + 1` is always enough. -/
def decDigitsCore : Nat → Nat → List Char
  | 0, _ => []
  | fuel + 1, n =>
    if n < 10 then [Char.ofNat (48 + n)]
    else decDigitsCore fuel (n / 10) ++ [Char.ofNat (48 + n % 10)]

/-- Python `str(n)` / `f"\x7bn\x7d"` for a natural number. -/
def natStr (n : Nat) : String := ⟨decDigitsCore (n + 1) n⟩

/-- The loop `for i in range(0, len(hex_values), w)` of
`binary_to_c_array`: one string-literal line per chunk of `w` elements of
`hex_values`.  Fuel-indexed; `hv.length` is sufficient fuel for `w ≥ 1`. -/
def escLinesCore : Nat → Nat → List String → List String
  | _, _, [] => []
  | 0, _, _ => []
  | fuel + 1, w, h :: t =>
    ("    \"" ++ (joinSep "" ((h :: t).take w) ++ "\"")) ::
      escLinesCore fuel w ((h :: t).drop w)

/-- The chunk lines of `binary_to_c_array` (loop body lines 35–47). -/
def escLines (w : Nat) (hv : List String) : List String :=
  escLinesCore hv.length w hv

/-- The loop `for i in range(0, len(data), w)` of
`binary_to_c_array_multiline`: an indented, comma-separated line per chunk
of `w` bytes, with a trailing comma unless the chunk is the last
(Python's `i + bytes_per_line < len(data)`, i.e. `w` is less than the
number of bytes remaining). -/
def hexLinesCore : Nat → Nat → List (Fin 256) → List String
  | _, _, [] => []
  | 0, _, _ => []
  | fuel + 1, w, b :: t =>
    (("    " ++ joinSep ", " (((b :: t).take w).map hex0x)) ++
        (if w < (b :: t).length then "," else "")) ::
      hexLinesCore fuel w ((b :: t).drop w)

/-- The chunk lines of `binary_to_c_array_multiline` (loop lines 75–86). -/
def hexLines (w : Nat) (l : List (Fin 256)) : List String :=
  hexLinesCore l.length w l

/-- The message of the `ValueError` Python raises for `range(0, n, 0)`. -/
def rangeStepError : String := "ValueError: range() arg 3 must not be zero"

/-- The `output` list of lines built by `binary_to_c_array` on non-empty
data: header line, chunk lines with `";"` appended to the last, then the
length comment. -/
def binary_to_c_array_output (data : List (Fin 256)) (array_name : String)
    (w : Nat) : List String :=
  appendToLast ";"
      (("unsigned char " ++ array_name ++ "[] =") ::
        escLines w (data.map escHex)) ++
    ["/* Length: " ++ (natStr data.length ++ " bytes */")]

/-- `binary_to_c_array` (lines 12–55 of `src/hextoc.py`).  Empty data is
special-cased before the loop; `bytes_per_line = 0` makes the `range`
call raise `ValueError`, embedded as `Except.error`. -/
def binary_to_c_array (data : List (Fin 256)) (array_name : String)
    (bytes_per_line : Nat) : Except String String :=
  if data = [] then .ok ("unsigned char " ++ array_name ++ "[] = \"\";")
  else if bytes_per_line = 0 then .error rangeStepError
  else .ok (joinSep "\n" (binary_to_c_array_output data array_name bytes_per_line))

/-- The `output` list of lines built by `binary_to_c_array_multiline` on
non-empty data: opening brace line, chunk lines, closing `";"` line
(written with escaped braces), then the length comment. -/
def binary_to_c_array_multiline_output (data : List (Fin 256))
    (array_name : String) (w : Nat) : List String :=
  (("unsigned char " ++ array_name ++ "[] = \x7b") :: hexLines w data) ++
    ["\x7d;", "/* Length: " ++ (natStr data.length ++ " bytes */")]

/-- `binary_to_c_array_multiline` (lines 57–91 of `src/hextoc.py`). -/
def binary_to_c_array_multiline (data : List (Fin 256)) (array_name : String)
    (bytes_per_line : Nat) : Except String String :=
  if data = [] then .ok ("unsigned char " ++ array_name ++ "[] = \x7b\x7d;")
  else if bytes_per_line = 0 then .error rangeStepError
  else .ok (joinSep "\n"
    (binary_to_c_array_multiline_output data array_name bytes_per_line))

/-! Re-parsing tools used to state the claims: a line splitter, a substring
test, and a scanner that extracts the two-digit hexadecimal tokens
(`0xHH` or `\xHH`, selected by the marker character `m`) of a string. -/

/-- `true` exactly for the sixteen characters `0`–`9`, `A`–`F`. -/
def isHexDigit (c : Char) : Bool :=
  decide ((48 ≤ c.toNat ∧ c.toNat ≤ 57) ∨ (65 ≤ c.toNat ∧ c.toNat ≤ 70))

/-- Numeric value of an uppercase hexadecimal digit character. -/
def hexVal (c : Char) : Nat :=
  if c.toNat ≤ 57 then c.toNat - 48 else c.toNat - 55

/-- Scan a character stream for tokens of shape `m`, `x`, two hex digits
(`m = '0'` for `0xHH` tokens, `m = '\'` for `\xHH` escapes), returning
the byte values of the tokens in order. -/
def scanHexTok (m : Char) : List Char → List Nat
  | [] => []
  | c :: rest =>
    if c = m then
      match rest with
      | d :: h1 :: h2 :: rest' =>
        if (d == 'x') && isHexDigit h1 && isHexDigit h2 then
          (16 * hexVal h1 + hexVal h2) :: scanHexTok m rest'
        else scanHexTok m (d :: h1 :: h2 :: rest')
      | [d, h1] => scanHexTok m [d, h1]
      | [d] => scanHexTok m [d]
      | [] => []
    else scanHexTok m rest
termination_by l => l.length
decreasing_by all_goals simp <;> omega

/-- Split a character stream at `'\n'`. -/
def splitLinesAux : List Char → List Char → List String
  | acc, [] => [⟨acc.reverse⟩]
  | acc, c :: rest =>
    if c = '\n' then ⟨acc.reverse⟩ :: splitLinesAux [] rest
    else splitLinesAux (c :: acc) rest

/-- The lines of a string (split at `'\n'`). -/
def splitLines (s : String) : List String := splitLinesAux [] s.data

/-- `true` when `pat` is an initial segment of the second list. -/
def leadsWith : List Char → List Char → Bool
  | [], _ => true
  | _ :: _, [] => false
  | p :: ps, c :: cs => (p == c) && leadsWith ps cs

/-- `true` when `pat` occurs as a contiguous run inside the list. -/
def subList (pat : List Char) : List Char → Bool
  | [] => pat.isEmpty
  | c :: t => leadsWith pat (c :: t) || subList pat t

/-- `true` when `pat` occurs as a contiguous substring of `s`. -/
def strContains (s pat : String) : Bool := subList pat.data s.data

/-- The value of an `Except` result that is known to be `ok`, with `""`
for the error case. -/
def okStr : Except String String → String
  | .ok s => s
  | .error _ => ""

/-! ### Character-level facts -/

theorem hexDigitChar_mem (k : Nat) (hk : k < 16) :
    hexDigitChar k ∈ ("0123456789ABCDEF").data := by
  interval_cases k <;> decide

theorem isHexDigit_hexDigitChar (k : Nat) (hk : k < 16) :
    isHexDigit (hexDigitChar k) = true := by
  interval_cases k <;> decide

theorem hexVal_hexDigitChar (k : Nat) (hk : k < 16) :
    hexVal (hexDigitChar k) = k := by
  interval_cases k <;> decide

theorem decDigitsCore_mem : ∀ fuel n c, c ∈ decDigitsCore fuel n →
    48 ≤ c.toNat ∧ c.toNat ≤ 57
  | 0, n, c, hc => by simp [decDigitsCore] at hc
  | fuel + 1, n, c, hc => by
    rw [decDigitsCore] at hc
    by_cases h : n < 10
    · rw [if_pos h] at hc
      simp at hc
      subst hc
      interval_cases n <;> decide
    · rw [if_neg h] at hc
      rcases List.mem_append.mp hc with h1 | h1
      · exact decDigitsCore_mem fuel (n / 10) c h1
      · simp at h1
        subst h1
        have h10 : n % 10 < 10 := Nat.mod_lt _ (by omega)
        generalize n % 10 = k at h10
        interval_cases k <;> decide

theorem decDigitsCore_ne_nil (fuel n : Nat) (h : 0 < fuel) :
    decDigitsCore fuel n ≠ [] := by
  cases fuel with
  | zero => omega
  | succ fuel =>
    rw [decDigitsCore]
    by_cases h10 : n < 10
    · simp [h10]
    · simp [h10]

/-! ### Equations for the token scanner -/

theorem scanHexTok_nil (m : Char) : scanHexTok m [] = [] := by
  simp [scanHexTok]

theorem scanHexTok_skip (m c : Char) (s : List Char) (h : c ≠ m) :
    scanHexTok m (c :: s) = scanHexTok m s := by
  rw [scanHexTok.eq_def]
  simp [h]

theorem scanHexTok_tok (m h1 h2 : Char) (s : List Char)
    (hh1 : isHexDigit h1 = true) (hh2 : isHexDigit h2 = true) :
    scanHexTok m (m :: 'x' :: h1 :: h2 :: s) =
      (16 * hexVal h1 + hexVal h2) :: scanHexTok m s := by
  rw [scanHexTok.eq_def]
  simp [hh1, hh2]

theorem scanHexTok_m_notx (m d : Char) (s : List Char) (hd : d ≠ 'x') :
    scanHexTok m (m :: d :: s) = scanHexTok m (d :: s) := by
  match s with
  | [] => rw [scanHexTok.eq_def]; simp
  | [h1] => rw [scanHexTok.eq_def]; simp
  | h1 :: h2 :: s' => rw [scanHexTok.eq_def]; simp [hd]

theorem scanHexTok_m_nil (m : Char) : scanHexTok m [m] = [] := by
  rw [scanHexTok.eq_def]
  simp

/-! ### Concatenation facts for the line-assembly helpers -/

theorem joinSep_cons (sep x : String) (l : List String) (h : l ≠ []) :
    joinSep sep (x :: l) = x ++ (sep ++ joinSep sep l) := by
  match l with
  | [] => simp at h
  | y :: t => rw [joinSep]

theorem joinSep_append (sep : String) (a b : List String) (ha : a ≠ [])
    (hb : b ≠ []) :
    joinSep sep (a ++ b) = joinSep sep a ++ (sep ++ joinSep sep b) := by
  induction a with
  | nil => simp at ha
  | cons x t ih =>
    cases t with
    | nil =>
      rw [List.singleton_append, joinSep_cons sep x b hb]
      rfl
    | cons y u =>
      rw [List.cons_append, joinSep_cons sep x ((y :: u) ++ b) (by simp),
        joinSep_cons sep x (y :: u) (by simp), ih (by simp)]
      simp [String.append_assoc]

theorem appendToLast_cons (suf x : String) (l : List String) (h : l ≠ []) :
    appendToLast suf (x :: l) = x :: appendToLast suf l := by
  match l with
  | [] => simp at h
  | y :: t => rw [appendToLast]

theorem appendToLast_mem (suf : String) : ∀ l x, x ∈ appendToLast suf l →
    ∃ y ∈ l, x = y ∨ x = y ++ suf
  | [], x, hx => by simp [appendToLast] at hx
  | [a], x, hx => by
    rw [appendToLast] at hx
    simp at hx
    exact ⟨a, by simp, Or.inr hx⟩
  | a :: b :: t, x, hx => by
    rw [appendToLast] at hx
    rcases List.mem_cons.mp hx with h | h
    · exact ⟨a, by simp, Or.inl h⟩
    · obtain ⟨y, hy, hxy⟩ := appendToLast_mem suf (b :: t) x h
      exact ⟨y, by simp [List.mem_cons.mp hy], hxy⟩

/-! ### Skipping token-free text during a scan -/

theorem scanHexTok_skip_all (m : Char) : ∀ (a : List Char) (s : List Char),
    m ∉ a → scanHexTok m (a ++ s) = scanHexTok m s
  | [], s, _ => rfl
  | c :: t, s, ha => by
    rw [List.cons_append,
      scanHexTok_skip m c (t ++ s) (fun hc => ha (hc ▸ List.mem_cons_self c t)),
      scanHexTok_skip_all m t s (fun hc => ha (List.mem_cons_of_mem c hc))]

theorem scanHexTok_skip_str (m : Char) (p : String) (s : List Char)
    (hp : m ∉ p.data) : scanHexTok m (p.data ++ s) = scanHexTok m s :=
  scanHexTok_skip_all m p.data s hp

/-! ### Scanning a rendered byte token -/

theorem scan_hex0x (b : Fin 256) (s : List Char) :
    scanHexTok '0' ((hex0x b).data ++ s) = b.val :: scanHexTok '0' s := by
  have hd : (hex0x b).data =
      '0' :: 'x' :: hexDigitChar (b.val / 16) :: hexDigitChar (b.val % 16) :: [] := rfl
  rw [hd, List.cons_append, List.cons_append, List.cons_append,
    List.cons_append, List.nil_append,
    scanHexTok_tok '0' _ _ s
      (isHexDigit_hexDigitChar _ (by omega))
      (isHexDigit_hexDigitChar _ (Nat.mod_lt _ (by omega))),
    hexVal_hexDigitChar _ (by omega),
    hexVal_hexDigitChar _ (Nat.mod_lt _ (by omega))]
  congr 1
  omega

theorem scan_escHex (b : Fin 256) (s : List Char) :
    scanHexTok '\\' ((escHex b).data ++ s) = b.val :: scanHexTok '\\' s := by
  have hd : (escHex b).data =
      '\\' :: 'x' :: hexDigitChar (b.val / 16) :: hexDigitChar (b.val % 16) :: [] := rfl
  rw [hd, List.cons_append, List.cons_append, List.cons_append,
    List.cons_append, List.nil_append,
    scanHexTok_tok '\\' _ _ s
      (isHexDigit_hexDigitChar _ (by omega))
      (isHexDigit_hexDigitChar _ (Nat.mod_lt _ (by omega))),
    hexVal_hexDigitChar _ (by omega),
    hexVal_hexDigitChar _ (Nat.mod_lt _ (by omega))]
  congr 1
  omega

/-! ### Scanning the joined tokens of one chunk -/

theorem scan_hexToks : ∀ (chunk : List (Fin 256)) (s : List Char),
    scanHexTok '0' ((joinSep ", " (chunk.map hex0x)).data ++ s) =
      chunk.map Fin.val ++ scanHexTok '0' s
  | [], s => by simp [joinSep]
  | [b], s => by
    simp only [List.map_cons, List.map_nil, joinSep]
    rw [scan_hex0x]
    rfl
  | b :: c :: t, s => by
    rw [List.map_cons, joinSep_cons _ _ _ (by simp),
      String.data_append, String.data_append, List.append_assoc,
      List.append_assoc, scan_hex0x,
      scanHexTok_skip_str '0' ", " _ (by decide),
      scan_hexToks (c :: t) s]
    rfl

theorem scan_escToks : ∀ (chunk : List (Fin 256)) (s : List Char),
    scanHexTok '\\' ((joinSep "" (chunk.map escHex)).data ++ s) =
      chunk.map Fin.val ++ scanHexTok '\\' s
  | [], s => by simp [joinSep]
  | [b], s => by
    simp only [List.map_cons, List.map_nil, joinSep]
    rw [scan_escHex]
    rfl
  | b :: c :: t, s => by
    rw [List.map_cons, joinSep_cons _ _ _ (by simp),
      String.data_append, String.data_append, List.append_assoc,
      List.append_assoc, scan_escHex]
    have he : ("" : String).data = [] := rfl
    rw [he, List.nil_append, scan_escToks (c :: t) s]
    rfl

/-! ### Scanning past the decimal length and the comment line -/

theorem scan0_digitChar (k : Nat) (hk : k < 10) (d : Char) (hd : d ≠ 'x')
    (s : List Char) :
    scanHexTok '0' (Char.ofNat (48 + k) :: d :: s) = scanHexTok '0' (d :: s) := by
  interval_cases k
  · exact scanHexTok_m_notx '0' d s hd
  all_goals exact scanHexTok_skip '0' _ _ (by decide)

theorem scan0_decDigits : ∀ (fuel n : Nat) (d : Char) (s : List Char),
    d ≠ 'x' →
    scanHexTok '0' (decDigitsCore fuel n ++ d :: s) = scanHexTok '0' (d :: s)
  | 0, n, d, s, _ => rfl
  | fuel + 1, n, d, s, hd => by
    rw [decDigitsCore]
    by_cases h : n < 10
    · rw [if_pos h, List.singleton_append]
      exact scan0_digitChar n h d hd s
    · rw [if_neg h, List.append_assoc, List.singleton_append,
        scan0_decDigits fuel (n / 10) _ (d :: s)
          (by
            have h10 : n % 10 < 10 := Nat.mod_lt _ (by omega)
            generalize n % 10 = k at h10
            interval_cases k <;> decide)]
      exact scan0_digitChar (n % 10) (Nat.mod_lt _ (by omega)) d hd s

theorem scanBS_decDigits (fuel n : Nat) (s : List Char) :
    scanHexTok '\\' (decDigitsCore fuel n ++ s) = scanHexTok '\\' s := by
  refine scanHexTok_skip_all '\\' _ s fun hmem => ?_
  have := decDigitsCore_mem fuel n _ hmem
  have hbs : ('\\').toNat = 92 := by decide
  omega

/-- Scanning the length-comment line finds no `0xHH` token: any `0` in the
decimal length is followed by another digit or by the space of
`" bytes */"`, never by `x`. -/
theorem scan0_comment (n : Nat) (s : List Char) :
    scanHexTok '0' (("/* Length: " ++ (natStr n ++ " bytes */")).data ++ s) =
      scanHexTok '0' s := by
  rw [String.data_append, String.data_append, List.append_assoc,
    List.append_assoc, scanHexTok_skip_str '0' "/* Length: " _ (by decide)]
  have hsp : (" bytes */").data ++ s = ' ' :: ("bytes */").data ++ s := rfl
  rw [natStr, hsp]
  rw [show ({ data := decDigitsCore (n + 1) n } : String).data =
    decDigitsCore (n + 1) n from rfl]
  rw [List.cons_append,
    scan0_decDigits (n + 1) n ' ' (("bytes */").data ++ s) (by decide),
    scanHexTok_skip '0' ' ' _ (by decide)]
  exact scanHexTok_skip_str '0' "bytes */" s (by decide)

/-- The comment line contains no backslash either. -/
theorem scanBS_comment (n : Nat) (s : List Char) :
    scanHexTok '\\' (("/* Length: " ++ (natStr n ++ " bytes */")).data ++ s) =
      scanHexTok '\\' s := by
  rw [String.data_append, String.data_append, List.append_assoc,
    List.append_assoc, scanHexTok_skip_str '\\' "/* Length: " _ (by decide),
    natStr, scanBS_decDigits (n + 1) n]
  exact scanHexTok_skip_str '\\' " bytes */" s (by decide)

/-! ### Scanning the whole chunk-line block -/

theorem hexLinesCore_ne_nil (fuel w : Nat) (b : Fin 256) (t : List (Fin 256))
    (hf : 0 < fuel) : hexLinesCore fuel w (b :: t) ≠ [] := by
  cases fuel with
  | zero => omega
  | succ fuel => simp [hexLinesCore]

theorem escLinesCore_ne_nil (fuel w : Nat) (h : String) (t : List String)
    (hf : 0 < fuel) : escLinesCore fuel w (h :: t) ≠ [] := by
  cases fuel with
  | zero => omega
  | succ fuel => simp [escLinesCore]

theorem appendToLast_ne_nil (suf : String) (l : List String) (h : l ≠ []) :
    appendToLast suf l ≠ [] := by
  match l with
  | [] => simp at h
  | [x] => simp [appendToLast]
  | x :: y :: t => simp [appendToLast]

theorem hexLinesCore_scan : ∀ (fuel w : Nat) (l : List (Fin 256)) (s : List Char),
    0 < w → l.length ≤ fuel →
    scanHexTok '0' ((joinSep "\n" (hexLinesCore fuel w l)).data ++ s) =
      l.map Fin.val ++ scanHexTok '0' s
  | fuel, w, [], s, hw, hf => by
    simp [hexLinesCore, joinSep, show (("" : String)).data = [] from rfl]
  | 0, w, b :: t, s, hw, hf => by simp at hf
  | fuel + 1, w, b :: t, s, hw, hf => by
    rw [hexLinesCore]
    by_cases hdrop : (b :: t).drop w = []
    · have hlen : (b :: t).length ≤ w := List.drop_eq_nil_iff.mp hdrop
      rw [hdrop, show hexLinesCore fuel w [] = [] from by simp [hexLinesCore],
        if_neg (show ¬ w < (b :: t).length by omega), joinSep]
      rw [String.append_empty, String.data_append, List.append_assoc,
        scanHexTok_skip_str '0' "    " _ (by decide), scan_hexToks,
        List.take_of_length_le hlen]
    · have hlt : w < (b :: t).length := by
        rcases Nat.lt_or_ge ((b :: t).length) (w + 1) with h | h
        · exact absurd (List.drop_eq_nil_iff.mpr (by omega)) hdrop
        · omega
      have hfpos : 0 < fuel := by
        have := List.length_cons b t
        omega
      obtain ⟨c, u, hcu⟩ := List.exists_cons_of_ne_nil hdrop
      have hne : hexLinesCore fuel w ((b :: t).drop w) ≠ [] := by
        rw [hcu]; exact hexLinesCore_ne_nil fuel w c u hfpos
      rw [if_pos hlt, joinSep_cons _ _ _ hne, String.data_append,
        String.data_append, String.data_append, String.data_append,
        List.append_assoc, List.append_assoc, List.append_assoc,
        List.append_assoc, scanHexTok_skip_str '0' "    " _ (by decide),
        show (("," : String)).data = [','] from rfl,
        show (("\n" : String)).data = ['\n'] from rfl,
        List.singleton_append, List.singleton_append, scan_hexToks,
        scanHexTok_skip '0' ',' _ (by decide),
        scanHexTok_skip '0' '\n' _ (by decide),
        hexLinesCore_scan fuel w ((b :: t).drop w) s hw
          (by rw [List.length_drop]; omega),
        ← List.append_assoc, ← List.map_append, List.take_append_drop]

theorem escLinesCore_scan : ∀ (fuel w : Nat) (l : List (Fin 256)) (s : List Char),
    0 < w → l.length ≤ fuel →
    scanHexTok '\\'
        ((joinSep "\n"
          (appendToLast ";" (escLinesCore fuel w (l.map escHex)))).data ++ s) =
      l.map Fin.val ++ scanHexTok '\\' s
  | fuel, w, [], s, hw, hf => by
    simp [escLinesCore, appendToLast, joinSep,
      show (("" : String)).data = [] from rfl]
  | 0, w, b :: t, s, hw, hf => by simp at hf
  | fuel + 1, w, b :: t, s, hw, hf => by
    rw [List.map_cons, escLinesCore, ← List.map_cons escHex b t,
      ← List.map_drop, ← List.map_take]
    by_cases hdrop : (b :: t).drop w = []
    · have hlen : (b :: t).length ≤ w := List.drop_eq_nil_iff.mp hdrop
      rw [hdrop, List.map_nil,
        show escLinesCore fuel w [] = [] from by simp [escLinesCore],
        show appendToLast ";"
            ["    \"" ++ (joinSep "" (((b :: t).take w).map escHex) ++ "\"")] =
          ["    \"" ++ (joinSep "" (((b :: t).take w).map escHex) ++ "\"") ++ ";"]
          from by rw [appendToLast],
        joinSep, String.data_append, String.data_append, String.data_append,
        List.append_assoc, List.append_assoc, List.append_assoc,
        scanHexTok_skip_str '\\' "    \"" _ (by decide), scan_escToks,
        List.take_of_length_le hlen,
        show (("\"" : String)).data = ['"'] from rfl,
        List.singleton_append, scanHexTok_skip '\\' '"' _ (by decide),
        show ((";" : String)).data = [';'] from rfl,
        List.singleton_append, scanHexTok_skip '\\' ';' _ (by decide)]
    · have hlt : w < (b :: t).length := by
        rcases Nat.lt_or_ge ((b :: t).length) (w + 1) with h | h
        · exact absurd (List.drop_eq_nil_iff.mpr (by omega)) hdrop
        · omega
      have hfpos : 0 < fuel := by
        have := List.length_cons b t
        omega
      obtain ⟨c, u, hcu⟩ := List.exists_cons_of_ne_nil hdrop
      have hne : escLinesCore fuel w (((b :: t).drop w).map escHex) ≠ [] := by
        rw [hcu, List.map_cons]
        exact escLinesCore_ne_nil fuel w _ _ hfpos
      rw [appendToLast_cons ";" _ _ hne,
        joinSep_cons _ _ _ (appendToLast_ne_nil ";" _ hne),
        String.data_append, String.data_append, String.data_append,
        String.data_append, List.append_assoc, List.append_assoc,
        List.append_assoc, scanHexTok_skip_str '\\' "    \"" _ (by decide),
        scan_escToks,
        show (("\"" : String)).data = ['"'] from rfl,
        show (("\n" : String)).data = ['\n'] from rfl,
        List.singleton_append, List.singleton_append,
        scanHexTok_skip '\\' '"' _ (by decide), List.cons_append,
        scanHexTok_skip '\\' '\n' _ (by decide),
        escLinesCore_scan fuel w ((b :: t).drop w) s hw
          (by rw [List.length_drop]; omega),
        ← List.append_assoc, ← List.map_append, List.take_append_drop]

/-! ### Scanning a complete formatted output -/

theorem scan0_commentD (n : Nat) (s : List Char) :
    scanHexTok '0' (("/* Length: ").data ++
        ((natStr n).data ++ ((" bytes */").data ++ s))) =
      scanHexTok '0' s := by
  have h := scan0_comment n s
  simp only [String.data_append, List.append_assoc] at h
  exact h

theorem scanBS_commentD (n : Nat) (s : List Char) :
    scanHexTok '\\' (("/* Length: ").data ++
        ((natStr n).data ++ ((" bytes */").data ++ s))) =
      scanHexTok '\\' s := by
  have h := scanBS_comment n s
  simp only [String.data_append, List.append_assoc] at h
  exact h

theorem scan0_multiline_chars (data : List (Fin 256)) (w : Nat) (hw : 0 < w)
    (hne : data ≠ []) (s : List Char) :
    scanHexTok '0'
        ((joinSep "\n"
          (binary_to_c_array_multiline_output data "buf" w)).data ++ s) =
      data.map Fin.val ++ scanHexTok '0' s := by
  obtain ⟨b, t, rfl⟩ := List.exists_cons_of_ne_nil hne
  have hbody : hexLines w (b :: t) ≠ [] := by
    rw [hexLines]
    exact hexLinesCore_ne_nil _ w b t (by simp)
  rw [binary_to_c_array_multiline_output,
    show ("unsigned char " ++ "buf" ++ "[] = \x7b") =
      "unsigned char buf[] = \x7b" from rfl,
    List.cons_append, joinSep_cons "\n" _ _ (by simp),
    joinSep_append "\n" _ _ hbody (by simp),
    show joinSep "\n"
        ["\x7d;", "/* Length: " ++ (natStr (b :: t).length ++ " bytes */")] =
      "\x7d;" ++ ("\n" ++
        ("/* Length: " ++ (natStr (b :: t).length ++ " bytes */"))) from rfl]
  simp only [String.data_append, List.append_assoc]
  rw [scanHexTok_skip_str '0' "unsigned char buf[] = \x7b" _ (by decide),
    scanHexTok_skip_str '0' "\n" _ (by decide), hexLines,
    hexLinesCore_scan (b :: t).length w (b :: t) _ hw (le_refl _),
    scanHexTok_skip_str '0' "\n" _ (by decide),
    scanHexTok_skip_str '0' "\x7d;" _ (by decide),
    scanHexTok_skip_str '0' "\n" _ (by decide),
    scan0_commentD (b :: t).length s]

theorem scanBS_escaped_chars (data : List (Fin 256)) (w : Nat) (hw : 0 < w)
    (hne : data ≠ []) (s : List Char) :
    scanHexTok '\\'
        ((joinSep "\n" (binary_to_c_array_output data "buf" w)).data ++ s) =
      data.map Fin.val ++ scanHexTok '\\' s := by
  obtain ⟨b, t, rfl⟩ := List.exists_cons_of_ne_nil hne
  have hesc : escLines w ((b :: t).map escHex) ≠ [] := by
    rw [List.map_cons, escLines]
    exact escLinesCore_ne_nil _ w _ _ (by simp)
  rw [binary_to_c_array_output,
    show ("unsigned char " ++ "buf" ++ "[] =") =
      "unsigned char buf[] =" from rfl,
    appendToLast_cons ";" _ _ hesc, List.cons_append,
    joinSep_cons "\n" _ _ (by simp),
    joinSep_append "\n" _ _ (appendToLast_ne_nil ";" _ hesc) (by simp),
    show joinSep "\n"
        ["/* Length: " ++ (natStr (b :: t).length ++ " bytes */")] =
      "/* Length: " ++ (natStr (b :: t).length ++ " bytes */") from rfl,
    escLines, List.length_map]
  simp only [String.data_append, List.append_assoc]
  rw [scanHexTok_skip_str '\\' "unsigned char buf[] =" _ (by decide),
    scanHexTok_skip_str '\\' "\n" _ (by decide),
    escLinesCore_scan (b :: t).length w (b :: t) _ hw (le_refl _),
    scanHexTok_skip_str '\\' "\n" _ (by decide),
    scanBS_commentD (b :: t).length s]

/-! ### Recovering the line list from the joined output -/

theorem splitLinesAux_no_nl : ∀ (a acc : List Char), '\n' ∉ a →
    splitLinesAux acc a = [⟨acc.reverse ++ a⟩]
  | [], acc, _ => by simp [splitLinesAux]
  | c :: t, acc, h => by
    rw [splitLinesAux,
      if_neg (fun hc => h (by rw [← hc]; exact List.mem_cons_self c t)),
      splitLinesAux_no_nl t (c :: acc) (fun hm => h (List.mem_cons_of_mem c hm))]
    simp

theorem splitLinesAux_break : ∀ (a acc rest : List Char), '\n' ∉ a →
    splitLinesAux acc (a ++ '\n' :: rest) =
      ⟨acc.reverse ++ a⟩ :: splitLinesAux [] rest
  | [], acc, rest, _ => by
    rw [List.nil_append, splitLinesAux, if_pos rfl]
    simp
  | c :: t, acc, rest, h => by
    rw [List.cons_append, splitLinesAux,
      if_neg (fun hc => h (by rw [← hc]; exact List.mem_cons_self c t)),
      splitLinesAux_break t (c :: acc) rest
        (fun hm => h (List.mem_cons_of_mem c hm))]
    simp

theorem splitLines_joinSep : ∀ (l : List String), (∀ x ∈ l, '\n' ∉ x.data) →
    l ≠ [] → splitLines (joinSep "\n" l) = l
  | [], _, hne => by simp at hne
  | [x], h, _ => by
    rw [joinSep, splitLines, splitLinesAux_no_nl x.data [] (h x (by simp))]
    simp
  | x :: y :: t, h, _ => by
    rw [joinSep_cons "\n" x (y :: t) (by simp), splitLines, String.data_append,
      String.data_append, show ("\n" : String).data = ['\n'] from rfl,
      List.singleton_append,
      splitLinesAux_break x.data [] _ (h x (by simp))]
    have hrec := splitLines_joinSep (y :: t)
      (fun z hz => h z (List.mem_cons_of_mem x hz)) (by simp)
    rw [splitLines] at hrec
    rw [hrec]
    simp

/-! ### No line of the output contains a newline -/

theorem hexDigitChar_ne (k : Nat) (hk : k < 16) (c : Char)
    (hc : c ∉ ("0123456789ABCDEF").data) : hexDigitChar k ≠ c := by
  intro h
  exact hc (h ▸ hexDigitChar_mem k hk)

theorem joinSep_data_mem (sep : String) : ∀ (l : List String) (c : Char),
    c ∈ (joinSep sep l).data → c ∈ sep.data ∨ ∃ x ∈ l, c ∈ x.data
  | [], c, h => by
    rw [joinSep] at h
    simp [show ("" : String).data = [] from rfl] at h
  | [x], c, h => by
    rw [joinSep] at h
    exact Or.inr ⟨x, by simp, h⟩
  | x :: y :: t, c, h => by
    rw [joinSep_cons sep x (y :: t) (by simp), String.data_append,
      String.data_append] at h
    rcases List.mem_append.mp h with h1 | h2
    · exact Or.inr ⟨x, by simp, h1⟩
    · rcases List.mem_append.mp h2 with h3 | h4
      · exact Or.inl h3
      · rcases joinSep_data_mem sep (y :: t) c h4 with h5 | ⟨z, hz, hcz⟩
        · exact Or.inl h5
        · exact Or.inr ⟨z, List.mem_cons_of_mem x hz, hcz⟩

theorem hex0x_no_nl (b : Fin 256) : '\n' ∉ (hex0x b).data := by
  rw [show (hex0x b).data =
    ['0', 'x', hexDigitChar (b.val / 16), hexDigitChar (b.val % 16)] from rfl]
  intro h
  rcases List.mem_cons.mp h with h0 | h
  · exact absurd h0 (by decide)
  rcases List.mem_cons.mp h with h0 | h
  · exact absurd h0 (by decide)
  rcases List.mem_cons.mp h with h0 | h
  · exact hexDigitChar_ne _ (by omega) '\n' (by decide) h0.symm
  rcases List.mem_cons.mp h with h0 | h
  · exact hexDigitChar_ne _ (Nat.mod_lt _ (by omega)) '\n' (by decide) h0.symm
  · simp at h

theorem escHex_no_nl (b : Fin 256) : '\n' ∉ (escHex b).data := by
  rw [show (escHex b).data =
    ['\\', 'x', hexDigitChar (b.val / 16), hexDigitChar (b.val % 16)] from rfl]
  intro h
  rcases List.mem_cons.mp h with h0 | h
  · exact absurd h0 (by decide)
  rcases List.mem_cons.mp h with h0 | h
  · exact absurd h0 (by decide)
  rcases List.mem_cons.mp h with h0 | h
  · exact hexDigitChar_ne _ (by omega) '\n' (by decide) h0.symm
  rcases List.mem_cons.mp h with h0 | h
  · exact hexDigitChar_ne _ (Nat.mod_lt _ (by omega)) '\n' (by decide) h0.symm
  · simp at h

theorem hexLinesCore_no_nl : ∀ (fuel w : Nat) (l : List (Fin 256)) (x : String),
    x ∈ hexLinesCore fuel w l → '\n' ∉ x.data
  | fuel, w, [], x, hx => by simp [hexLinesCore] at hx
  | 0, w, b :: t, x, hx => by simp [hexLinesCore] at hx
  | fuel + 1, w, b :: t, x, hx => by
    rw [hexLinesCore] at hx
    rcases List.mem_cons.mp hx with rfl | hx
    · intro hc
      rw [String.data_append, String.data_append] at hc
      rcases List.mem_append.mp hc with h1 | h2
      · rcases List.mem_append.mp h1 with h3 | h4
        · exact absurd h3 (by decide)
        · rcases joinSep_data_mem ", " _ _ h4 with h5 | ⟨z, hz, hcz⟩
          · exact absurd h5 (by decide)
          · obtain ⟨bb, _, rfl⟩ := List.mem_map.mp hz
            exact hex0x_no_nl bb hcz
      · by_cases hcond : w < (b :: t).length
        · rw [if_pos hcond] at h2
          exact absurd h2 (by decide)
        · rw [if_neg hcond] at h2
          exact absurd h2 (by decide)
    · exact hexLinesCore_no_nl fuel w _ x hx

theorem escLinesCore_no_nl : ∀ (fuel w : Nat) (hv : List String) (x : String),
    (∀ h ∈ hv, '\n' ∉ h.data) → x ∈ escLinesCore fuel w hv → '\n' ∉ x.data
  | fuel, w, [], x, _, hx => by simp [escLinesCore] at hx
  | 0, w, h :: t, x, _, hx => by simp [escLinesCore] at hx
  | fuel + 1, w, h :: t, x, hall, hx => by
    rw [escLinesCore] at hx
    rcases List.mem_cons.mp hx with rfl | hx
    · intro hc
      rw [String.data_append, String.data_append] at hc
      rcases List.mem_append.mp hc with h1 | h2
      · exact absurd h1 (by decide)
      · rcases List.mem_append.mp h2 with h3 | h4
        · rcases joinSep_data_mem "" _ _ h3 with h5 | ⟨z, hz, hcz⟩
          · exact absurd h5 (by decide)
          · exact hall z (List.take_subset w _ hz) hcz
        · exact absurd h4 (by decide)
    · exact escLinesCore_no_nl fuel w _ x
        (fun z hz => hall z (List.drop_subset w _ hz)) hx

theorem comment_no_nl (n : Nat) :
    '\n' ∉ ("/* Length: " ++ (natStr n ++ " bytes */")).data := by
  intro h
  rw [String.data_append, String.data_append,
    show (natStr n).data = decDigitsCore (n + 1) n from rfl] at h
  rcases List.mem_append.mp h with h1 | h2
  · exact absurd h1 (by decide)
  rcases List.mem_append.mp h2 with h3 | h4
  · have hmem := decDigitsCore_mem (n + 1) n _ h3
    have h10 : ('\n').toNat = 10 := by decide
    omega
  · exact absurd h4 (by decide)

/-- The joined multiline output splits back into exactly its line list. -/
theorem multiline_lines (data : List (Fin 256)) (name : String) (w : Nat)
    (hn : '\n' ∉ name.data) :
    splitLines (joinSep "\n" (binary_to_c_array_multiline_output data name w)) =
      binary_to_c_array_multiline_output data name w := by
  apply splitLines_joinSep
  · intro x hx
    rw [binary_to_c_array_multiline_output] at hx
    rcases List.mem_append.mp hx with h1 | h2
    · rcases List.mem_cons.mp h1 with rfl | h3
      · intro hc
        rw [String.data_append, String.data_append] at hc
        rcases List.mem_append.mp hc with ha | hb
        · rcases List.mem_append.mp ha with hc1 | hc2
          · exact absurd hc1 (by decide)
          · exact hn hc2
        · exact absurd hb (by decide)
      · rw [hexLines] at h3
        exact hexLinesCore_no_nl _ w data x h3
    · rcases List.mem_cons.mp h2 with rfl | h4
      · decide
      · rcases List.mem_cons.mp h4 with rfl | h5
        · exact comment_no_nl data.length
        · simp at h5
  · rw [binary_to_c_array_multiline_output]
    simp

/-- The joined escaped-string output splits back into exactly its line
list. -/
theorem escaped_lines (data : List (Fin 256)) (name : String) (w : Nat)
    (hn : '\n' ∉ name.data) :
    splitLines (joinSep "\n" (binary_to_c_array_output data name w)) =
      binary_to_c_array_output data name w := by
  apply splitLines_joinSep
  · intro x hx
    rw [binary_to_c_array_output] at hx
    rcases List.mem_append.mp hx with h1 | h2
    · obtain ⟨y, hy, hxy⟩ := appendToLast_mem ";" _ x h1
      have hyn : '\n' ∉ y.data := by
        rcases List.mem_cons.mp hy with rfl | h3
        · intro hc
          rw [String.data_append, String.data_append] at hc
          rcases List.mem_append.mp hc with ha | hb
          · rcases List.mem_append.mp ha with hc1 | hc2
            · exact absurd hc1 (by decide)
            · exact hn hc2
          · exact absurd hb (by decide)
        · rw [escLines] at h3
          exact escLinesCore_no_nl _ w _ y
            (fun z hz hcz => by
              obtain ⟨bb, _, rfl⟩ := List.mem_map.mp hz
              exact escHex_no_nl bb hcz) h3
      rcases hxy with rfl | rfl
      · exact hyn
      · intro hc
        rw [String.data_append] at hc
        rcases List.mem_append.mp hc with hcy | hcs
        · exact hyn hcy
        · exact absurd hcs (by decide)
    · rcases List.mem_cons.mp h2 with rfl | h4
      · exact comment_no_nl data.length
      · simp at h4
  · rw [binary_to_c_array_output]
    simp

/-! ### Chunk count and token count -/

theorem ceil_step (len w : Nat) (hw : 0 < w) (hlen : 0 < len) :
    (len + w - 1) / w = (len - w + w - 1) / w + 1 := by
  rcases le_or_lt len w with h | h
  · have h0 : len - w = 0 := by omega
    have e1 : len + w - 1 = (len - 1) + w := by omega
    rw [h0, e1, Nat.add_div_right _ hw,
      Nat.div_eq_of_lt (show len - 1 < w by omega),
      Nat.div_eq_of_lt (show 0 + w - 1 < w by omega)]
  · have e1 : len + w - 1 = (len - 1) + w := by omega
    have e2 : len - 1 = (len - w - 1) + w := by omega
    have e3 : len - w + w - 1 = (len - w - 1) + w := by omega
    rw [e1, Nat.add_div_right _ hw, e2, Nat.add_div_right _ hw, e3,
      Nat.add_div_right _ hw]

theorem hexLinesCore_length : ∀ (fuel w : Nat) (l : List (Fin 256)),
    0 < w → l.length ≤ fuel →
    (hexLinesCore fuel w l).length = (l.length + w - 1) / w
  | fuel, w, [], hw, _ => by
    rw [show hexLinesCore fuel w [] = [] from by simp [hexLinesCore],
      List.length_nil, List.length_nil,
      Nat.div_eq_of_lt (show 0 + w - 1 < w by omega)]
  | 0, w, b :: t, hw, hf => by simp at hf
  | fuel + 1, w, b :: t, hw, hf => by
    rw [hexLinesCore, List.length_cons,
      hexLinesCore_length fuel w ((b :: t).drop w) hw
        (by rw [List.length_drop]; omega),
      List.length_drop]
    have hstep := ceil_step (b :: t).length w hw (by simp)
    omega

theorem scan0_hexline (chunk : List (Fin 256)) (tail : String)
    (htail : scanHexTok '0' tail.data = []) :
    scanHexTok '0' ((("    " ++ joinSep ", " (chunk.map hex0x)) ++ tail).data) =
      chunk.map Fin.val := by
  rw [String.data_append, String.data_append, List.append_assoc,
    scanHexTok_skip_str '0' "    " _ (by decide), scan_hexToks, htail,
    List.append_nil]

theorem hexLinesCore_tokcount : ∀ (fuel w : Nat) (l : List (Fin 256)),
    0 < w → l.length ≤ fuel →
    ((hexLinesCore fuel w l).map
      (fun x => (scanHexTok '0' x.data).length)).sum = l.length
  | fuel, w, [], hw, _ => by
    rw [show hexLinesCore fuel w [] = [] from by simp [hexLinesCore]]
    rfl
  | 0, w, b :: t, hw, hf => by simp at hf
  | fuel + 1, w, b :: t, hw, hf => by
    rw [hexLinesCore, List.map_cons, List.sum_cons,
      hexLinesCore_tokcount fuel w ((b :: t).drop w) hw
        (by rw [List.length_drop]; omega)]
    have hline : (scanHexTok '0' ((("    " ++
        joinSep ", " (((b :: t).take w).map hex0x)) ++
          (if w < (b :: t).length then "," else "")).data)).length =
        ((b :: t).take w).length := by
      by_cases hcond : w < (b :: t).length
      · rw [if_pos hcond, scan0_hexline _ ","
          (by
            rw [show ("," : String).data = [','] from rfl,
              show ([','] : List Char) = [','] ++ ([] : List Char) from rfl,
              scanHexTok_skip_all '0' [','] [] (by decide), scanHexTok_nil]),
          List.length_map]
      · rw [if_neg hcond, scan0_hexline _ ""
          (by rw [show ("" : String).data = [] from rfl, scanHexTok_nil]),
          List.length_map]
    rw [hline]
    have h1 : ((b :: t).take w).length = min w (b :: t).length := by simp
    have h2 : ((b :: t).drop w).length = (b :: t).length - w := by simp
    have h3 := List.length_cons b t
    omega

/-! ### Trailing commas -/

theorem joinSep_hex0x_last : ∀ (chunk : List (Fin 256)), chunk ≠ [] →
    ∃ k, k < 16 ∧
      (joinSep ", " (chunk.map hex0x)).data.getLast? = some (hexDigitChar k)
  | [b], _ => by
    refine ⟨b.val % 16, Nat.mod_lt _ (by omega), ?_⟩
    rw [List.map_cons, List.map_nil, joinSep,
      show (hex0x b).data = ['0', 'x', hexDigitChar (b.val / 16)] ++
        [hexDigitChar (b.val % 16)] from rfl, List.getLast?_concat]
  | b :: c :: t, _ => by
    obtain ⟨k, hk, hlast⟩ := joinSep_hex0x_last (c :: t) (by simp)
    refine ⟨k, hk, ?_⟩
    rw [List.map_cons, joinSep_cons _ _ _ (by simp), String.data_append,
      String.data_append,
      List.getLast?_append_of_ne_nil _ (by
        intro he
        rcases List.append_eq_nil.mp he with ⟨_, he2⟩
        rw [he2] at hlast
        simp at hlast),
      List.getLast?_append_of_ne_nil _ (by
        intro he
        rw [he] at hlast
        simp at hlast)]
    exact hlast

theorem take_cons_ne_nil (w : Nat) (hw : 0 < w) (b : Fin 256)
    (t : List (Fin 256)) : (b :: t).take w ≠ [] := by
  cases w with
  | zero => omega
  | succ w => simp

theorem hexLinesCore_commas : ∀ (fuel w : Nat) (l : List (Fin 256)),
    0 < w → l.length ≤ fuel →
    (∀ x ∈ (hexLinesCore fuel w l).dropLast, x.data.getLast? = some ',') ∧
    (∀ x, (hexLinesCore fuel w l).getLast? = some x →
      x.data.getLast? ≠ some ',')
  | fuel, w, [], _, _ => by
    rw [show hexLinesCore fuel w [] = [] from by simp [hexLinesCore]]
    constructor
    · intro x hx
      simp at hx
    · intro x hx
      simp at hx
  | 0, w, b :: t, _, hf => by simp at hf
  | fuel + 1, w, b :: t, hw, hf => by
    rw [hexLinesCore]
    by_cases hdrop : (b :: t).drop w = []
    · have hlen : (b :: t).length ≤ w := List.drop_eq_nil_iff.mp hdrop
      rw [hdrop, show hexLinesCore fuel w [] = [] from by simp [hexLinesCore],
        if_neg (show ¬ w < (b :: t).length by omega)]
      constructor
      · intro x hx
        simp at hx
      · intro x hx
        rw [show ∀ y : String, [y].getLast? = some y from fun y => rfl] at hx
        obtain rfl := Option.some.inj hx
        obtain ⟨k, hk, hlast⟩ :=
          joinSep_hex0x_last ((b :: t).take w) (take_cons_ne_nil w hw b t)
        rw [String.append_empty, String.data_append,
          List.getLast?_append_of_ne_nil _ (by
            intro he
            rw [he] at hlast
            simp at hlast), hlast]
        intro hcon
        exact hexDigitChar_ne k hk ',' (by decide) (Option.some.inj hcon)
    · have hlt : w < (b :: t).length := by
        rcases Nat.lt_or_ge ((b :: t).length) (w + 1) with h | h
        · exact absurd (List.drop_eq_nil_iff.mpr (by omega)) hdrop
        · omega
      have hfpos : 0 < fuel := by
        have := List.length_cons b t
        omega
      obtain ⟨c, u, hcu⟩ := List.exists_cons_of_ne_nil hdrop
      have hne : hexLinesCore fuel w ((b :: t).drop w) ≠ [] := by
        rw [hcu]
        exact hexLinesCore_ne_nil fuel w c u hfpos
      obtain ⟨ih1, ih2⟩ := hexLinesCore_commas fuel w ((b :: t).drop w) hw
        (by rw [List.length_drop]; omega)
      rw [if_pos hlt]
      obtain ⟨r, rs, hrr⟩ := List.exists_cons_of_ne_nil hne
      constructor
      · intro x hx
        rw [hrr, show ∀ y z : String, ∀ zs : List String,
            (y :: z :: zs).dropLast = y :: (z :: zs).dropLast
            from fun _ _ _ => rfl] at hx
        rcases List.mem_cons.mp hx with rfl | hx2
        · rw [String.data_append, show (("," : String)).data = [','] from rfl,
            List.getLast?_append_of_ne_nil _ (by simp)]
          rfl
        · rw [← hrr] at hx2
          exact ih1 x hx2
      · intro x hx
        rw [show ∀ y : String, ∀ zs : List String, (y :: zs) = [y] ++ zs
            from fun _ _ => rfl,
          List.getLast?_append_of_ne_nil _ hne] at hx
        exact ih2 x hx

/-! ### Substring facts -/

theorem leadsWith_refl_append : ∀ (p l : List Char),
    leadsWith p (p ++ l) = true
  | [], l => rfl
  | c :: t, l => by
    rw [List.cons_append, leadsWith]
    simp [leadsWith_refl_append t l]

theorem subList_nil_pat : ∀ (l : List Char), subList [] l = true
  | [] => rfl
  | c :: t => by
    rw [subList]
    simp [leadsWith]

theorem subList_here : ∀ (p b : List Char), subList p (p ++ b) = true
  | [], b => by
    rw [List.nil_append]
    exact subList_nil_pat b
  | c :: t, b => by
    have h := leadsWith_refl_append (c :: t) b
    rw [List.cons_append] at h
    rw [List.cons_append, subList, h]
    simp

theorem subList_append (a p b : List Char) : subList p (a ++ (p ++ b)) = true := by
  induction a with
  | nil =>
    rw [List.nil_append]
    exact subList_here p b
  | cons c t ih =>
    rw [List.cons_append, subList, ih]
    simp

theorem strContains_of (s pat : String) (a b : List Char)
    (h : s.data = a ++ (pat.data ++ b)) : strContains s pat = true := by
  rw [strContains, h]
  exact subList_append a pat.data b

theorem appendToLast_head (suf line1 : String) (rest : List String) :
    (appendToLast suf (line1 :: rest)).head? = some line1 ∨
    (appendToLast suf (line1 :: rest)).head? = some (line1 ++ suf) := by
  match rest with
  | [] =>
    right
    rw [appendToLast]
    rfl
  | r :: rs =>
    left
    rw [appendToLast]
    rfl

/-! ## The claims -/

/-- C1 (counterexample): on empty input `binary_to_c_array_multiline` does
NOT return the claimed two-line string with the length comment; the early
return at line 70 of the source produces only the declaration line. -/
theorem C1_empty_hexarray_counterexample :
    binary_to_c_array_multiline [] "buf" 12 ≠
      Except.ok "unsigned char buf[] = \x7b\x7d;\n/* Length: 0 bytes */" := by
  intro h
  rw [show binary_to_c_array_multiline [] "buf" 12 =
    Except.ok ("unsigned char " ++ "buf" ++ "[] = \x7b\x7d;") from rfl] at h
  exact absurd (Except.ok.inj h) (by decide)

/-- C1 (amended): for the empty byte sequence
`binary_to_c_array_multiline` returns the single line
`unsigned char <name>[] = ...;` with empty braces and NO length-comment
line; the comment is appended only on the non-empty branch. -/
theorem C1_empty_hexarray (name : String) (w : Nat) :
    binary_to_c_array_multiline [] name w =
      Except.ok ("unsigned char " ++ name ++ "[] = \x7b\x7d;") := rfl

/-- C2 (counterexample): at data `[0x7F]`, name `buf`, width 12, the
first output line of `binary_to_c_array` is exactly the declaration
header and does not contain the first chunk's escape `\x7F`. -/
theorem C2_first_line_counterexample :
    (splitLines (okStr (binary_to_c_array [(127 : Fin 256)] "buf" 12))).head? =
        some "unsigned char buf[] =" ∧
      strContains
        (((splitLines (okStr
          (binary_to_c_array [(127 : Fin 256)] "buf" 12))).head?).getD "")
        "\\x7F" = false := by decide

/-- C2 (amended): for every non-empty byte sequence and positive width,
the first output line of `binary_to_c_array` holds exactly the
array-declaration header `unsigned char <name>[] =`, and the first chunk
of bytes encoded as `\xHH` escapes appears on the second line. -/
theorem C2_first_line (data : List (Fin 256)) (name : String) (w : Nat)
    (hne : data ≠ []) (hw : 0 < w) (hn : '\n' ∉ name.data) :
    ∃ s, binary_to_c_array data name w = Except.ok s ∧
      (splitLines s).head? = some ("unsigned char " ++ name ++ "[] =") ∧
      ∃ ln, (splitLines s)[1]? = some ln ∧
        strContains ln (joinSep "" ((data.take w).map escHex)) = true := by
  obtain ⟨b, t, rfl⟩ := List.exists_cons_of_ne_nil hne
  refine ⟨_, by rw [binary_to_c_array, if_neg (by simp), if_neg (by omega)], ?_⟩
  rw [escaped_lines (b :: t) name w hn]
  have hesc : escLines w ((b :: t).map escHex) =
      ("    \"" ++ (joinSep "" (((b :: t).take w).map escHex) ++ "\"")) ::
        escLinesCore (t.map escHex).length w (((b :: t).map escHex).drop w) := by
    rw [List.map_cons, escLines, List.length_cons, escLinesCore,
      ← List.map_cons escHex b t, ← List.map_take]
  rw [binary_to_c_array_output, hesc, appendToLast_cons ";" _ _ (by simp),
    List.cons_append]
  refine ⟨rfl, ?_⟩
  rw [List.getElem?_cons_succ,
    List.getElem?_append_left (by
      have := appendToLast_ne_nil ";"
        (("    \"" ++ (joinSep "" (((b :: t).take w).map escHex) ++ "\"")) ::
          escLinesCore (t.map escHex).length w (((b :: t).map escHex).drop w))
        (by simp)
      cases hh : appendToLast ";"
        (("    \"" ++ (joinSep "" (((b :: t).take w).map escHex) ++ "\"")) ::
          escLinesCore (t.map escHex).length w (((b :: t).map escHex).drop w)) with
      | nil => exact absurd hh (this)
      | cons z zs => simp)]
  rcases appendToLast_head ";"
      ("    \"" ++ (joinSep "" (((b :: t).take w).map escHex) ++ "\""))
      (escLinesCore (t.map escHex).length w (((b :: t).map escHex).drop w)) with
    hh | hh
  · refine ⟨_, by rw [← List.head?_eq_getElem?]; exact hh, ?_⟩
    refine strContains_of _ _ ("    \"").data (("\"").data) ?_
    rw [String.data_append, String.data_append]
  · refine ⟨_, by rw [← List.head?_eq_getElem?]; exact hh, ?_⟩
    refine strContains_of _ _ ("    \"").data (("\"").data ++ (";").data) ?_
    rw [String.data_append, String.data_append, String.data_append]
    simp [List.append_assoc]

/-- C2 (witness): the amended first-line property at data `[0x7F, 0x45]`,
name `buf`, width 1. -/
theorem C2_first_line_witness :
    ([(127 : Fin 256), 69] ≠ []) ∧ 0 < 1 ∧ '\n' ∉ ("buf" : String).data ∧
    (∃ s, binary_to_c_array [(127 : Fin 256), 69] "buf" 1 = Except.ok s ∧
      (splitLines s).head? = some ("unsigned char " ++ "buf" ++ "[] =") ∧
      ∃ ln, (splitLines s)[1]? = some ln ∧
        strContains ln
          (joinSep "" (([(127 : Fin 256), 69].take 1).map escHex)) = true) :=
  ⟨by decide, by decide, by decide,
    C2_first_line [(127 : Fin 256), 69] "buf" 1 (by decide) (by decide)
      (by decide)⟩

/-- C3: for every byte sequence and positive width, re-parsing the `0xHH`
tokens of the `binary_to_c_array_multiline` output, in order, reproduces
the input bytes exactly. -/
theorem C3_hexarray_roundtrip (data : List (Fin 256)) (w : Nat) (hw : 0 < w) :
    ∃ s, binary_to_c_array_multiline data "buf" w = Except.ok s ∧
      scanHexTok '0' s.data = data.map Fin.val := by
  by_cases hd : data = []
  · subst hd
    refine ⟨"unsigned char " ++ "buf" ++ "[] = \x7b\x7d;", rfl, ?_⟩
    have h := scanHexTok_skip_str '0'
      ("unsigned char " ++ "buf" ++ "[] = \x7b\x7d;") [] (by decide)
    rw [List.append_nil, scanHexTok_nil] at h
    rw [h]
    rfl
  · refine ⟨_,
      by rw [binary_to_c_array_multiline, if_neg hd, if_neg (by omega)], ?_⟩
    have h := scan0_multiline_chars data w hw hd []
    rw [List.append_nil, scanHexTok_nil, List.append_nil] at h
    exact h

/-- C3 (witness): the hex-array round trip at the ELF-magic bytes with
width 2. -/
theorem C3_hexarray_roundtrip_witness :
    0 < 2 ∧
    (∃ s, binary_to_c_array_multiline
        [(127 : Fin 256), 69, 76, 70, 0, 16] "buf" 2 = Except.ok s ∧
      scanHexTok '0' s.data =
        [(127 : Fin 256), 69, 76, 70, 0, 16].map Fin.val) :=
  ⟨by decide, C3_hexarray_roundtrip [(127 : Fin 256), 69, 76, 70, 0, 16] 2
    (by decide)⟩

/-- C4: for every byte sequence and positive width, re-parsing the `\xHH`
escape tokens of the `binary_to_c_array` output, in order, reproduces the
input bytes exactly. -/
theorem C4_escaped_roundtrip (data : List (Fin 256)) (w : Nat) (hw : 0 < w) :
    ∃ s, binary_to_c_array data "buf" w = Except.ok s ∧
      scanHexTok '\\' s.data = data.map Fin.val := by
  by_cases hd : data = []
  · subst hd
    refine ⟨"unsigned char " ++ "buf" ++ "[] = \"\";", rfl, ?_⟩
    have h := scanHexTok_skip_str '\\'
      ("unsigned char " ++ "buf" ++ "[] = \"\";") [] (by decide)
    rw [List.append_nil, scanHexTok_nil] at h
    rw [h]
    rfl
  · refine ⟨_, by rw [binary_to_c_array, if_neg hd, if_neg (by omega)], ?_⟩
    have h := scanBS_escaped_chars data w hw hd []
    rw [List.append_nil, scanHexTok_nil, List.append_nil] at h
    exact h

/-- C4 (witness): the escaped-string round trip at the ELF-magic bytes
with width 4. -/
theorem C4_escaped_roundtrip_witness :
    0 < 4 ∧
    (∃ s, binary_to_c_array [(127 : Fin 256), 69, 76, 70, 0, 16] "buf" 4 =
        Except.ok s ∧
      scanHexTok '\\' s.data =
        [(127 : Fin 256), 69, 76, 70, 0, 16].map Fin.val) :=
  ⟨by decide, C4_escaped_roundtrip [(127 : Fin 256), 69, 76, 70, 0, 16] 4
    (by decide)⟩

/-- C5: for every non-empty byte sequence and positive width, the
multiline output consists of the opening-brace line, then exactly
`ceil(length / width)` chunk lines, then the closing line and the length
comment; the total number of `0xHH` tokens on the chunk lines equals the
number of input bytes. -/
theorem C5_chunk_count (data : List (Fin 256)) (name : String) (w : Nat)
    (hne : data ≠ []) (hw : 0 < w) (hn : '\n' ∉ name.data) :
    ∃ s, binary_to_c_array_multiline data name w = Except.ok s ∧
      splitLines s = ("unsigned char " ++ name ++ "[] = \x7b") ::
        (hexLines w data ++
          ["\x7d;", "/* Length: " ++ (natStr data.length ++ " bytes */")]) ∧
      (hexLines w data).length = (data.length + w - 1) / w ∧
      ((hexLines w data).map
        (fun ln => (scanHexTok '0' ln.data).length)).sum = data.length := by
  refine ⟨_,
    by rw [binary_to_c_array_multiline, if_neg hne, if_neg (by omega)],
    ?_, ?_, ?_⟩
  · rw [multiline_lines data name w hn, binary_to_c_array_multiline_output,
      List.cons_append]
  · rw [hexLines]
    exact hexLinesCore_length _ w data hw (le_refl _)
  · rw [hexLines]
    exact hexLinesCore_tokcount _ w data hw (le_refl _)

/-- C5 (witness): the chunk-line count and token count at four bytes with
width 3 (two chunk lines, the second shorter). -/
theorem C5_chunk_count_witness :
    ([(127 : Fin 256), 69, 76, 70] ≠ []) ∧ 0 < 3 ∧
    '\n' ∉ ("buf" : String).data ∧
    (∃ s, binary_to_c_array_multiline [(127 : Fin 256), 69, 76, 70] "buf" 3 =
        Except.ok s ∧
      splitLines s = ("unsigned char " ++ "buf" ++ "[] = \x7b") ::
        (hexLines 3 [(127 : Fin 256), 69, 76, 70] ++
          ["\x7d;", "/* Length: " ++
            (natStr [(127 : Fin 256), 69, 76, 70].length ++ " bytes */")]) ∧
      (hexLines 3 [(127 : Fin 256), 69, 76, 70]).length =
        ([(127 : Fin 256), 69, 76, 70].length + 3 - 1) / 3 ∧
      ((hexLines 3 [(127 : Fin 256), 69, 76, 70]).map
        (fun ln => (scanHexTok '0' ln.data).length)).sum =
        [(127 : Fin 256), 69, 76, 70].length) :=
  ⟨by decide, by decide, by decide,
    C5_chunk_count [(127 : Fin 256), 69, 76, 70] "buf" 3 (by decide)
      (by decide) (by decide)⟩

/-- C6: for every non-empty byte sequence and positive width, in the
multiline output every chunk line except the last ends with a comma, and
the last chunk line does not end with a comma. -/
theorem C6_trailing_commas (data : List (Fin 256)) (name : String) (w : Nat)
    (hne : data ≠ []) (hw : 0 < w) (hn : '\n' ∉ name.data) :
    ∃ s, binary_to_c_array_multiline data name w = Except.ok s ∧
      splitLines s = ("unsigned char " ++ name ++ "[] = \x7b") ::
        (hexLines w data ++
          ["\x7d;", "/* Length: " ++ (natStr data.length ++ " bytes */")]) ∧
      (∀ ln ∈ (hexLines w data).dropLast, ln.data.getLast? = some ',') ∧
      (∀ ln, (hexLines w data).getLast? = some ln →
        ln.data.getLast? ≠ some ',') := by
  refine ⟨_,
    by rw [binary_to_c_array_multiline, if_neg hne, if_neg (by omega)],
    ?_, ?_, ?_⟩
  · rw [multiline_lines data name w hn, binary_to_c_array_multiline_output,
      List.cons_append]
  · rw [hexLines]
    exact (hexLinesCore_commas _ w data hw (le_refl _)).1
  · rw [hexLines]
    exact (hexLinesCore_commas _ w data hw (le_refl _)).2

/-- C6 (witness): the trailing-comma shape at four bytes with width 3. -/
theorem C6_trailing_commas_witness :
    ([(127 : Fin 256), 69, 76, 70] ≠ []) ∧ 0 < 3 ∧
    '\n' ∉ ("buf" : String).data ∧
    (∃ s, binary_to_c_array_multiline [(127 : Fin 256), 69, 76, 70] "buf" 3 =
        Except.ok s ∧
      splitLines s = ("unsigned char " ++ "buf" ++ "[] = \x7b") ::
        (hexLines 3 [(127 : Fin 256), 69, 76, 70] ++
          ["\x7d;", "/* Length: " ++
            (natStr [(127 : Fin 256), 69, 76, 70].length ++ " bytes */")]) ∧
      (∀ ln ∈ (hexLines 3 [(127 : Fin 256), 69, 76, 70]).dropLast,
        ln.data.getLast? = some ',') ∧
      (∀ ln, (hexLines 3 [(127 : Fin 256), 69, 76, 70]).getLast? = some ln →
        ln.data.getLast? ≠ some ',')) :=
  ⟨by decide, by decide, by decide,
    C6_trailing_commas [(127 : Fin 256), 69, 76, 70] "buf" 3 (by decide)
      (by decide) (by decide)⟩

/-- C7: for the empty byte sequence `binary_to_c_array` returns exactly
the single line `unsigned char <name>[] = "";` for any name and width,
with no length-comment line; in particular at name `buf`, width 12. -/
theorem C7_empty_escaped :
    (∀ (name : String) (w : Nat), binary_to_c_array [] name w =
      Except.ok ("unsigned char " ++ name ++ "[] = \"\";")) ∧
    binary_to_c_array [] "buf" 12 =
      Except.ok "unsigned char buf[] = \"\";" :=
  ⟨fun _ _ => rfl, by
    rw [show ("unsigned char buf[] = \"\";" : String) =
      "unsigned char " ++ "buf" ++ "[] = \"\";" from by decide]
    rfl⟩

/-- C8: for every byte sequence, name, and positive width, both
formatters return a string (no exception), and the embedding of both as
pure functions on an immutable input list reflects that they never mutate
their input. -/
theorem C8_total (data : List (Fin 256)) (name : String) (w : Nat)
    (hw : 0 < w) :
    (∃ s, binary_to_c_array data name w = Except.ok s) ∧
    (∃ s, binary_to_c_array_multiline data name w = Except.ok s) := by
  by_cases hd : data = []
  · subst hd
    exact ⟨⟨_, rfl⟩, ⟨_, rfl⟩⟩
  · exact ⟨⟨_, by rw [binary_to_c_array, if_neg hd, if_neg (by omega)]⟩,
      ⟨_, by rw [binary_to_c_array_multiline, if_neg hd, if_neg (by omega)]⟩⟩

/-- C8 (witness): totality at one byte, name `buf`, width 12. -/
theorem C8_total_witness :
    0 < 12 ∧
    ((∃ s, binary_to_c_array [(127 : Fin 256)] "buf" 12 = Except.ok s) ∧
     (∃ s, binary_to_c_array_multiline [(127 : Fin 256)] "buf" 12 =
       Except.ok s)) :=
  ⟨by decide, C8_total [(127 : Fin 256)] "buf" 12 (by decide)⟩

/-- C9: both formatters are deterministic: two invocations with equal
data, equal array name, and equal width return equal results (they are
pure functions of their arguments, with no shared state between runs). -/
theorem C9_deterministic (d₁ d₂ : List (Fin 256)) (n₁ n₂ : String)
    (w₁ w₂ : Nat) (hd : d₁ = d₂) (hn : n₁ = n₂) (hw : w₁ = w₂) :
    binary_to_c_array d₁ n₁ w₁ = binary_to_c_array d₂ n₂ w₂ ∧
    binary_to_c_array_multiline d₁ n₁ w₁ =
      binary_to_c_array_multiline d₂ n₂ w₂ := by
  subst hd
  subst hn
  subst hw
  exact ⟨rfl, rfl⟩

/-- C9 (witness): determinism at a concrete invocation pair. -/
theorem C9_deterministic_witness :
    ([(1 : Fin 256), 2]) = [(1 : Fin 256), 2] ∧ ("buf" : String) = "buf" ∧
    (5 : Nat) = 5 ∧
    (binary_to_c_array [(1 : Fin 256), 2] "buf" 5 =
      binary_to_c_array [(1 : Fin 256), 2] "buf" 5 ∧
     binary_to_c_array_multiline [(1 : Fin 256), 2] "buf" 5 =
      binary_to_c_array_multiline [(1 : Fin 256), 2] "buf" 5) :=
  ⟨rfl, rfl, rfl,
    C9_deterministic [(1 : Fin 256), 2] [(1 : Fin 256), 2] "buf" "buf" 5 5
      rfl rfl rfl⟩

/-- C10: with width 0, both formatters raise (the `range` step-zero
`ValueError`, embedded as `Except.error`) on every non-empty byte
sequence, while on the empty byte sequence the early special-case returns
normally for any width, including 0. -/
theorem C10_width_zero (data : List (Fin 256)) (name : String) :
    (data ≠ [] →
      binary_to_c_array data name 0 = Except.error rangeStepError ∧
      binary_to_c_array_multiline data name 0 =
        Except.error rangeStepError) ∧
    (binary_to_c_array [] name 0 =
      Except.ok ("unsigned char " ++ name ++ "[] = \"\";") ∧
     binary_to_c_array_multiline [] name 0 =
      Except.ok ("unsigned char " ++ name ++ "[] = \x7b\x7d;")) := by
  constructor
  · intro hne
    constructor
    · rw [binary_to_c_array, if_neg hne, if_pos rfl]
    · rw [binary_to_c_array_multiline, if_neg hne, if_pos rfl]
  · exact ⟨rfl, rfl⟩

/-- C10 (witness): the width-0 error at one byte and the width-0 empty
special case, name `buf`. -/
theorem C10_width_zero_witness :
    ([(127 : Fin 256)] ≠ []) ∧
    (binary_to_c_array [(127 : Fin 256)] "buf" 0 =
      Except.error rangeStepError ∧
     binary_to_c_array_multiline [(127 : Fin 256)] "buf" 0 =
      Except.error rangeStepError) ∧
    (binary_to_c_array [] "buf" 0 =
      Except.ok ("unsigned char " ++ "buf" ++ "[] = \"\";") ∧
     binary_to_c_array_multiline [] "buf" 0 =
      Except.ok ("unsigned char " ++ "buf" ++ "[] = \x7b\x7d;")) :=
  ⟨by decide, (C10_width_zero [(127 : Fin 256)] "buf").1 (by decide),
    (C10_width_zero [] "buf").2⟩

end HexToC
